import Mathlib

/-!
Verification of the text segmentation / pagination engine of the
"AI-Powered Multi-Tool Application" repository.

The engine lives in `src/utils/text_processing.py` (class `TextProcessor`:
`clean_text`, `segment_text_for_audio`, `split_story_into_pages`) with one
caller-side fallback in `src/pdf_to_audio.py` (`split_text_into_chunks`).

Shallow embedding conventions:
* Strings are Lean `String` (a wrapped `List Char`); Python `len` is
  `String.length` / `List.length`.
* The NLTK sentence tokenizer `sent_tokenize` is an external library from the
  core's point of view; it is modelled as an explicit function argument
  `tok : String → List String`, so theorems quantify over every possible
  tokenizer output.  Where a claim needs the tokenizer contract of the spec
  (§4.2: an ordered list of non-empty trimmed sentences) it appears as an
  explicit hypothesis.
* Python regular-expression passes of `clean_text` are modelled by structurally
  recursive scanners over `List Char` implementing the same rewriting
  semantics; each carries a comment stating the regex it models.
* Character classes are faithful on ASCII (the regexes' `\s`, `\w`, `[A-Z]`
  are modelled on their ASCII fragment; `[A-Z]` is exactly ASCII in Python
  too).
-/

/-! ## Character classes of `clean_text` -/

/-- The regex class `\s` (ASCII fragment): space, tab, newline, vertical tab,
form feed, carriage return. -/
def isWs (c : Char) : Bool :=
  c = ' ' || c = '\t' || c = '\n' || c = '\x0b' || c = '\x0c' || c = '\r'

/-- The punctuation class `[.,!?;:]` used by the spacing-repair regexes. -/
def isPunct (c : Char) : Bool :=
  c = '.' || c = ',' || c = '!' || c = '?' || c = ';' || c = ':'

/-- The single-quote character (code 39). -/
def squote : Char := Char.ofNat 39

/-- The double-quote character (code 34). -/
def dquote : Char := Char.ofNat 34

/-- A character kept by the filtering pass
`re.sub(r'[^\w\s.,!?;:()\x27"-]', '', text)`: word characters (`\w`, ASCII
fragment: alphanumeric or underscore), whitespace, the punctuation class, and
the extra characters `( ) ' " -`. -/
def isAllowed (c : Char) : Bool :=
  c.isAlphanum || c = '_' || isWs c || isPunct c ||
    c = '(' || c = ')' || c = squote || c = dquote || c = '-'

/-! ## The four rewriting passes of `TextProcessor.clean_text`

`clean_text` applies, in order:
1. `re.sub(r'\s+', ' ', text)` — collapse every maximal whitespace run to a
   single space;
2. `re.sub(r'\s+([.,!?;:])', r'\1', text)` — delete every whitespace run that
   immediately precedes a punctuation mark;
3. `re.sub(r'([.,!?;:])\s*([A-Z])', r'\1 \2', text)` — rewrite a punctuation
   mark followed by optional whitespace and an ASCII capital so that exactly
   one space separates them;
4. `re.sub(r'[^\w\s.,!?;:()\x27"-]', '', text)` — drop disallowed characters;
then `str.strip()`.
-/

/-- `headIs p l`: the list is non-empty and its first character satisfies
`p`. -/
def headIs (p : Char → Bool) : List Char → Bool
  | [] => false
  | c :: _ => p c

/-- Pass 1: each maximal whitespace run becomes one `' '`.  A whitespace
character is emitted as `' '` when it starts a run (i.e. the collapsed tail
does not already start with whitespace) and skipped otherwise. -/
def collapseWs : List Char → List Char
  | [] => []
  | c :: rest =>
    if isWs c then
      if headIs isWs (collapseWs rest) then collapseWs rest
      else ' ' :: collapseWs rest
    else c :: collapseWs rest

/-- Pass 2: a whitespace character is deleted exactly when its maximal
whitespace run is immediately followed by a punctuation mark — equivalently,
when the processed tail starts with a punctuation mark. -/
def rmWsBeforePunct : List Char → List Char
  | [] => []
  | c :: rest =>
    if isWs c then
      if headIs isPunct (rmWsBeforePunct rest) then rmWsBeforePunct rest
      else c :: rmWsBeforePunct rest
    else c :: rmWsBeforePunct rest

/-- Pass 3: after a punctuation mark, if skipping whitespace in the processed
tail reaches an ASCII capital, the whitespace run is replaced by a single
space (matches starting inside the consumed region are impossible since a
capital is neither whitespace nor a punctuation mark, so processing the tail
first is sound). -/
def fixPunctUpper : List Char → List Char
  | [] => []
  | c :: rest =>
    if isPunct c then
      if headIs Char.isUpper ((fixPunctUpper rest).dropWhile isWs) then
        c :: ' ' :: (fixPunctUpper rest).dropWhile isWs
      else c :: fixPunctUpper rest
    else c :: fixPunctUpper rest

/-- Python `str.strip()` on the character list: drop whitespace from both
ends. -/
def trimWs (l : List Char) : List Char :=
  (l.dropWhile isWs).rdropWhile isWs

/-- Python `str.strip()` at string level. -/
def pyStrip (s : String) : String := String.mk (trimWs s.data)

/-- The whole `clean_text` pipeline on a character list. -/
def cleanChars (l : List Char) : List Char :=
  trimWs (List.filter isAllowed (fixPunctUpper (rmWsBeforePunct (collapseWs l))))

/-- `TextProcessor.clean_text` (src/utils/text_processing.py, lines 60-77). -/
def clean_text (s : String) : String := String.mk (cleanChars s.data)

/-! ## `TextProcessor.segment_text_for_audio` (lines 79-102) -/

/-- Python `" ".join` on a list of strings. -/
def sjoin : List String → String
  | [] => ""
  | [s] => s
  | s :: t :: rest => s ++ " " ++ sjoin (t :: rest)

/-- The greedy accumulation loop of `segment_text_for_audio`:

    for sentence in sentences:
        if len(current_chunk + sentence) > max_chunk_size and current_chunk:
            chunks.append(current_chunk.strip()); current_chunk = sentence
        else:
            current_chunk += " " + sentence if current_chunk else sentence
    if current_chunk.strip(): chunks.append(current_chunk.strip())
-/
def chunkLoop : List String → String → Nat → List String
  | [], current, _ => if pyStrip current ≠ "" then [pyStrip current] else []
  | s :: rest, current, m =>
    if m < (current ++ s).length ∧ current ≠ "" then
      pyStrip current :: chunkLoop rest s m
    else
      chunkLoop rest (if current ≠ "" then current ++ " " ++ s else s) m

/-- `TextProcessor.segment_text_for_audio`, with the external
`sent_tokenize` passed in as `tok`. -/
def segment_text_for_audio (tok : String → List String) (text : String)
    (max_chunk_size : Nat) : List String :=
  chunkLoop (tok text) "" max_chunk_size

/-- Sentence-group view of the same loop: instead of the joined string it
records which consecutive sentences form each chunk.  The branch conditions
are literally those of `chunkLoop` with `current = sjoin cur`. -/
def chunkGroups : List String → List String → Nat → List (List String)
  | [], cur, _ => if cur ≠ [] then [cur] else []
  | s :: rest, cur, m =>
    if m < (sjoin cur ++ s).length ∧ cur ≠ [] then
      cur :: chunkGroups rest [s] m
    else
      chunkGroups rest (cur ++ [s]) m

/-! ## `TextProcessor.split_story_into_pages` (lines 147-202) -/

/-- The discourse-marker list of `split_story_into_pages`. -/
def markers : List String :=
  ["but", "however", "then", "so", "and", "or", "finally", "suddenly"]

/-- Python `str.lower()` modelled per character (exact on ASCII, which is all
the marker matching can see). -/
def pyLower (s : String) : String := String.mk (s.data.map Char.toLower)

/-- Python's substring test `w in s` on character lists. -/
def hasSubstr (w : List Char) : List Char → Bool
  | [] => w.isEmpty
  | c :: rest => w.isPrefixOf (c :: rest) || hasSubstr w rest

/-- The page-closing decision of `split_story_into_pages`, evaluated right
after a sentence has been appended: `n` is the sentence count of the current
page, `len` its cumulative character length, `s` the just-appended sentence.

    if len(current_page) >= 4: should_new_page = True
    elif current_length > 300 and len(current_page) >= 2: should_new_page = True
    elif len(current_page) >= 3 and current_length > 200:
        if any(word in sentence.lower() for word in markers): should_new_page = True
-/
def shouldNewPage (n len : Nat) (s : String) : Bool :=
  if 4 ≤ n then true
  else if 300 < len ∧ 2 ≤ n then true
  else if 3 ≤ n ∧ 200 < len then
    markers.any (fun w => hasSubstr w.data (pyLower s).data)
  else false

/-- The accumulation loop of `split_story_into_pages`: append the sentence,
update the cumulative length, close the page when `shouldNewPage` fires, and
emit any remainder as a final page. -/
def pageLoop : List String → List String → Nat → List String
  | [], cur, _ => if cur ≠ [] then [sjoin cur] else []
  | s :: rest, cur, len =>
    if shouldNewPage (cur ++ [s]).length (len + s.length) s then
      sjoin (cur ++ [s]) :: pageLoop rest [] 0
    else
      pageLoop rest (cur ++ [s]) (len + s.length)

/-- The sentence list `split_story_into_pages` actually paginates:
`sentences = [s.strip() for s in sent_tokenize(clean_text(story_text)) if s.strip()]`. -/
def storySentences (tok : String → List String) (story_text : String) :
    List String :=
  ((tok (clean_text story_text)).map pyStrip).filter (fun s => s ≠ "")

/-- `TextProcessor.split_story_into_pages`.  The `sentences_per_page`
parameter is accepted (default 3 in the source) but never read by the loop. -/
def split_story_into_pages (tok : String → List String) (story_text : String)
    (sentences_per_page : Nat) : List String :=
  pageLoop (storySentences tok story_text) [] 0

/-- Sentence-group view of `pageLoop`. -/
def pageGroups : List String → List String → Nat → List (List String)
  | [], cur, _ => if cur ≠ [] then [cur] else []
  | s :: rest, cur, len =>
    if shouldNewPage (cur ++ [s]).length (len + s.length) s then
      (cur ++ [s]) :: pageGroups rest [] 0
    else
      pageGroups rest (cur ++ [s]) (len + s.length)

/-! ## `PDFToAudioConverter.split_text_into_chunks` (src/pdf_to_audio.py,
lines 47-58) -/

/-- The fallback slicing `[text[i:i+chunk_size] for i in range(0, len(text), chunk_size)]`
on the character list.  Python raises `ValueError` for step 0; the `0` case is
unreachable under the claims' precondition `chunk_size ≥ 1`. -/
def sliceChunks : List Char → Nat → List (List Char)
  | _, 0 => []
  | [], _ + 1 => []
  | c :: rest, k + 1 =>
    (c :: rest).take (k + 1) :: sliceChunks ((c :: rest).drop (k + 1)) (k + 1)
termination_by l _ => l.length
decreasing_by simp [List.length_drop]; omega

/-- `split_text_into_chunks`: the `try`/`except` around
`segment_text_for_audio` is modelled by an `Option`-valued segmentation
result; `none` means the sentence splitter raised, in which case the code
returns the fixed-width slices instead of propagating the error. -/
def split_text_into_chunks (segResult : Option (List String)) (text : String)
    (chunk_size : Nat) : List String :=
  match segResult with
  | some chunks => chunks
  | none => (sliceChunks text.data chunk_size).map String.mk

/-! ## Tokenizer contract (spec §4.2) -/

/-- A sentence as the §4.2 contract delivers it: non-empty and carrying no
leading or trailing whitespace. -/
def GoodSent (s : String) : Prop := s ≠ "" ∧ pyStrip s = s

/-- Cumulative character length of a sentence group, as tracked by
`current_length` in `split_story_into_pages`. -/
def sumLen (g : List String) : Nat := (g.map String.length).sum

/-- The close condition a finished page satisfies, phrased on its sentence
group: count, cumulative length, and the last (most recently appended)
sentence. -/
def closedGroup (g : List String) : Prop :=
  shouldNewPage g.length (sumLen g) (g.getLastD "") = true

/-! ## Predicates used by the verification -/

/-- The first character (if any) is not whitespace. -/
def headOk (l : List Char) : Prop := ∀ c ∈ l.head?, isWs c = false

/-- The last character (if any) is not whitespace. -/
def lastOk (l : List Char) : Prop := ∀ c ∈ l.getLast?, isWs c = false

/-- No two adjacent whitespace characters. -/
def nwsR (a b : Char) : Prop := ¬(isWs a = true ∧ isWs b = true)

/-- No whitespace character immediately before a punctuation mark. -/
def nwpR (a b : Char) : Prop := ¬(isWs a = true ∧ isPunct b = true)

/-- No punctuation mark immediately followed by an ASCII capital. -/
def npuR (a b : Char) : Prop := ¬(isPunct a = true ∧ b.isUpper = true)

/-- Every whitespace character is the plain space. -/
def wsSingle (l : List Char) : Prop := ∀ c ∈ l, isWs c = true → c = ' '

/-- The shape invariants a `clean_text` output has when no character was
removed by the filtering pass: all whitespace is a single isolated space, no
whitespace before punctuation, no punctuation directly followed by a capital,
no whitespace at either end, and only allowed characters. -/
def NormalChars (l : List Char) : Prop :=
  wsSingle l ∧ List.Chain' nwsR l ∧ List.Chain' nwpR l ∧
    List.Chain' npuR l ∧ headOk l ∧ lastOk l ∧ ∀ c ∈ l, isAllowed c = true

instance goodSentDecidable (s : String) : Decidable (GoodSent s) :=
  inferInstanceAs (Decidable (s ≠ "" ∧ pyStrip s = s))

instance closedGroupDecidable (g : List String) : Decidable (closedGroup g) :=
  inferInstanceAs (Decidable (_ = true))

/-! ## Basic facts about the character classes and strings -/

theorem isWs_cases {c : Char} (h : isWs c = true) :
    c = ' ' ∨ c = '\t' ∨ c = '\n' ∨ c = '\x0b' ∨ c = '\x0c' ∨ c = '\r' := by
  simp only [isWs, Bool.or_eq_true, decide_eq_true_eq] at h
  tauto

theorem isPunct_cases {c : Char} (h : isPunct c = true) :
    c = '.' ∨ c = ',' ∨ c = '!' ∨ c = '?' ∨ c = ';' ∨ c = ':' := by
  simp only [isPunct, Bool.or_eq_true, decide_eq_true_eq] at h
  tauto

theorem ws_not_punct {c : Char} (h : isWs c = true) : isPunct c = false := by
  rcases isWs_cases h with rfl | rfl | rfl | rfl | rfl | rfl <;> decide

theorem punct_not_ws {c : Char} (h : isPunct c = true) : isWs c = false := by
  rcases isPunct_cases h with rfl | rfl | rfl | rfl | rfl | rfl <;> decide

theorem upper_not_ws {c : Char} (h : c.isUpper = true) : isWs c = false := by
  cases hw : isWs c with
  | false => rfl
  | true =>
    exfalso
    rcases isWs_cases hw with rfl | rfl | rfl | rfl | rfl | rfl <;> exact absurd h (by decide)

theorem upper_not_punct {c : Char} (h : c.isUpper = true) : isPunct c = false := by
  cases hw : isPunct c with
  | false => rfl
  | true =>
    exfalso
    rcases isPunct_cases hw with rfl | rfl | rfl | rfl | rfl | rfl <;> exact absurd h (by decide)

theorem string_ne_empty_iff (s : String) : s ≠ "" ↔ s.data ≠ [] := by
  constructor
  · intro h hd
    exact h (String.ext hd)
  · intro h hd
    rw [hd] at h
    exact h rfl

theorem string_mk_inj {a b : List Char} (h : String.mk a = String.mk b) : a = b := by
  simpa using congrArg String.data h

/-! ## Edge conditions and `trimWs` -/


theorem rdropWhile_isPre (p : Char → Bool) (l : List Char) :
    List.rdropWhile p l <+: l := List.rdropWhile_prefix p l

theorem chainInfix {R : Char → Char → Prop} {l l₁ : List Char}
    (h : List.Chain' R l) (h' : l₁ <:+: l) : List.Chain' R l₁ :=
  List.Chain'.infix h h'

theorem headOk_dropWhile (l : List Char) : headOk (l.dropWhile isWs) := by
  intro c hc
  have w : l.dropWhile isWs ≠ [] := by
    intro h0
    rw [h0] at hc
    simp at hc
  have hv := List.head_dropWhile_not isWs l w
  rw [List.head?_eq_head w] at hc
  simp at hc
  subst hc
  exact hv

theorem headOk_rdropWhile {l : List Char} (h : headOk l) (p : Char → Bool) :
    headOk (l.rdropWhile p) := by
  intro c hc
  obtain ⟨t, ht⟩ := rdropWhile_isPre p l
  apply h c
  rw [← ht, List.head?_append]
  cases hr : (l.rdropWhile p).head? with
  | none => rw [hr] at hc; simp at hc
  | some d =>
    rw [hr] at hc
    simp at hc
    subst hc
    simp [Option.or]

theorem lastOk_rdropWhile (l : List Char) : lastOk (l.rdropWhile isWs) := by
  intro c hc
  have w : l.rdropWhile isWs ≠ [] := by
    intro h0
    rw [h0] at hc
    simp at hc
  have hv := List.rdropWhile_last_not isWs l w
  rw [List.getLast?_eq_getLast _ w] at hc
  simp at hc
  subst hc
  simpa using hv

theorem headOk_trimWs (l : List Char) : headOk (trimWs l) :=
  headOk_rdropWhile (headOk_dropWhile l) isWs

theorem lastOk_trimWs (l : List Char) : lastOk (trimWs l) :=
  lastOk_rdropWhile (l.dropWhile isWs)

theorem trimWs_eq_self {l : List Char} (h1 : headOk l) (h2 : lastOk l) :
    trimWs l = l := by
  have hd : l.dropWhile isWs = l := by
    cases l with
    | nil => rfl
    | cons c t =>
      rw [List.dropWhile_cons]
      have : isWs c = false := h1 c (by simp)
      simp [this]
  unfold trimWs
  rw [hd, List.rdropWhile_eq_self_iff]
  intro hl
  have := h2 (l.getLast hl) (by simp [List.getLast?_eq_getLast _ hl])
  simp [this]

theorem trimWs_isInf (l : List Char) : trimWs l <:+: l := by
  obtain ⟨t, ht⟩ := rdropWhile_isPre isWs (l.dropWhile isWs)
  obtain ⟨u, hu⟩ := (List.dropWhile_suffix isWs : List.dropWhile isWs l <:+ l)
  refine ⟨u, t, ?_⟩
  rw [List.append_assoc]
  simp only [trimWs]
  rw [ht, hu]

theorem mem_trimWs {x : Char} {l : List Char} (h : x ∈ trimWs l) : x ∈ l :=
  List.Sublist.mem h (List.IsInfix.sublist (trimWs_isInf l))

theorem string_mk_data (s : String) : String.mk s.data = s := rfl

theorem goodSent_iff (s : String) :
    GoodSent s ↔ s.data ≠ [] ∧ headOk s.data ∧ lastOk s.data := by
  constructor
  · rintro ⟨hne, hstrip⟩
    have hdata : trimWs s.data = s.data := by
      have := congrArg String.data hstrip
      simpa [pyStrip] using this
    refine ⟨(string_ne_empty_iff s).mp hne, ?_, ?_⟩
    · rw [← hdata]; exact headOk_trimWs s.data
    · rw [← hdata]; exact lastOk_trimWs s.data
  · rintro ⟨hne, h1, h2⟩
    refine ⟨(string_ne_empty_iff s).mpr hne, ?_⟩
    unfold pyStrip
    rw [trimWs_eq_self h1 h2]

/-! ## Adjacency invariants used by the idempotence analysis -/


theorem headIs_false_head? {p : Char → Bool} {l : List Char}
    (h : headIs p l = false) : ∀ y ∈ l.head?, p y = false := by
  intro y hy
  cases l with
  | nil => simp at hy
  | cons d t =>
    simp at hy
    subst hy
    exact h

theorem headIs_true_head? {p : Char → Bool} {l : List Char}
    (h : headIs p l = true) : ∃ d t, l = d :: t ∧ p d = true := by
  cases l with
  | nil => simp [headIs] at h
  | cons d t => exact ⟨d, t, rfl, h⟩

/-! ## Lemmas about `collapseWs` -/

theorem collapseWs_ne_nil {l : List Char} (h : l ≠ []) : collapseWs l ≠ [] := by
  cases l with
  | nil => exact absurd rfl h
  | cons c rest =>
    rw [collapseWs]
    by_cases hc : isWs c = true
    · rw [if_pos hc]
      by_cases hh : headIs isWs (collapseWs rest) = true
      · rw [if_pos hh]
        obtain ⟨d, t, hdt, _⟩ := headIs_true_head? hh
        rw [hdt]
        simp
      · rw [if_neg hh]
        simp
    · rw [if_neg hc]
      simp

theorem collapseWs_headWs (l : List Char) :
    headIs isWs (collapseWs l) = headIs isWs l := by
  cases l with
  | nil => rfl
  | cons c rest =>
    rw [collapseWs]
    by_cases hc : isWs c = true
    · rw [if_pos hc]
      by_cases hh : headIs isWs (collapseWs rest) = true
      · rw [if_pos hh, hh, headIs, hc]
      · rw [if_neg hh]
        simp [headIs, hc]
        decide
    · rw [if_neg hc]
      simp [headIs, hc]

theorem mem_collapseWs {x : Char} : ∀ {l : List Char},
    x ∈ collapseWs l → x ∈ l ∨ x = ' '
  | [], h => by simp [collapseWs] at h
  | c :: rest, h => by
    rw [collapseWs] at h
    by_cases hc : isWs c = true
    · rw [if_pos hc] at h
      by_cases hh : headIs isWs (collapseWs rest) = true
      · rw [if_pos hh] at h
        rcases mem_collapseWs h with h' | h'
        · exact Or.inl (List.mem_cons_of_mem c h')
        · exact Or.inr h'
      · rw [if_neg hh] at h
        rcases List.mem_cons.mp h with h' | h'
        · exact Or.inr h'
        · rcases mem_collapseWs h' with h'' | h''
          · exact Or.inl (List.mem_cons_of_mem c h'')
          · exact Or.inr h''
    · rw [if_neg hc] at h
      rcases List.mem_cons.mp h with h' | h'
      · exact Or.inl (h' ▸ List.mem_cons_self c rest)
      · rcases mem_collapseWs h' with h'' | h''
        · exact Or.inl (List.mem_cons_of_mem c h'')
        · exact Or.inr h''

theorem collapseWs_wsSingle : ∀ l : List Char, wsSingle (collapseWs l)
  | [] => by intro c hc; simp [collapseWs] at hc
  | c :: rest => by
    intro x hx hwx
    rw [collapseWs] at hx
    by_cases hc : isWs c = true
    · rw [if_pos hc] at hx
      by_cases hh : headIs isWs (collapseWs rest) = true
      · rw [if_pos hh] at hx
        exact collapseWs_wsSingle rest x hx hwx
      · rw [if_neg hh] at hx
        rcases List.mem_cons.mp hx with h' | h'
        · exact h'
        · exact collapseWs_wsSingle rest x h' hwx
    · rw [if_neg hc] at hx
      rcases List.mem_cons.mp hx with h' | h'
      · exact absurd (h' ▸ hwx) hc
      · exact collapseWs_wsSingle rest x h' hwx

theorem collapseWs_chain : ∀ l : List Char, List.Chain' nwsR (collapseWs l)
  | [] => by simp [collapseWs]
  | c :: rest => by
    rw [collapseWs]
    by_cases hc : isWs c = true
    · rw [if_pos hc]
      by_cases hh : headIs isWs (collapseWs rest) = true
      · rw [if_pos hh]
        exact collapseWs_chain rest
      · rw [if_neg hh]
        rw [List.chain'_cons']
        refine ⟨?_, collapseWs_chain rest⟩
        intro y hy
        have hh' : headIs isWs (collapseWs rest) = false := by simpa using hh
        have := headIs_false_head? hh' y hy
        exact fun hand => by rw [this] at hand; exact absurd hand.2 (by simp)
    · rw [if_neg hc]
      rw [List.chain'_cons']
      refine ⟨?_, collapseWs_chain rest⟩
      intro y _
      exact fun hand => hc hand.1

theorem collapseWs_eq_self : ∀ {l : List Char}, wsSingle l → List.Chain' nwsR l →
    collapseWs l = l
  | [], _, _ => rfl
  | c :: rest, hs, hch => by
    have hrest : collapseWs rest = rest :=
      collapseWs_eq_self (fun x hx => hs x (List.mem_cons_of_mem c hx))
        (List.Chain'.tail hch)
    rw [collapseWs, hrest]
    by_cases hc : isWs c = true
    · rw [if_pos hc]
      have hcsp : c = ' ' := hs c (List.mem_cons_self c rest) hc
      cases rest with
      | nil => rw [if_neg (by simp [headIs]), hcsp]
      | cons d t =>
        have hd : isWs d = false := by
          have := (List.chain'_cons.mp hch).1
          by_contra hdt
          exact this ⟨hc, by simpa using hdt⟩
        rw [if_neg (by simp [headIs, hd]), hcsp]
    · rw [if_neg hc]

/-! ## Lemmas about `rmWsBeforePunct` -/

theorem mem_rmWsBeforePunct {x : Char} : ∀ {l : List Char},
    x ∈ rmWsBeforePunct l → x ∈ l
  | [], h => by simp [rmWsBeforePunct] at h
  | c :: rest, h => by
    rw [rmWsBeforePunct] at h
    by_cases hc : isWs c = true
    · rw [if_pos hc] at h
      by_cases hh : headIs isPunct (rmWsBeforePunct rest) = true
      · rw [if_pos hh] at h
        exact List.mem_cons_of_mem c (mem_rmWsBeforePunct h)
      · rw [if_neg hh] at h
        rcases List.mem_cons.mp h with h' | h'
        · exact h' ▸ List.mem_cons_self c rest
        · exact List.mem_cons_of_mem c (mem_rmWsBeforePunct h')
    · rw [if_neg hc] at h
      rcases List.mem_cons.mp h with h' | h'
      · exact h' ▸ List.mem_cons_self c rest
      · exact List.mem_cons_of_mem c (mem_rmWsBeforePunct h')

theorem rmWsBeforePunct_cons_not_ws {c : Char} {rest : List Char}
    (hc : isWs c = false) :
    rmWsBeforePunct (c :: rest) = c :: rmWsBeforePunct rest := by
  rw [rmWsBeforePunct, if_neg (by simp [hc])]

theorem rmWsBeforePunct_chains : ∀ {l : List Char}, List.Chain' nwsR l →
    List.Chain' nwsR (rmWsBeforePunct l) ∧ List.Chain' nwpR (rmWsBeforePunct l)
  | [], _ => by constructor <;> simp [rmWsBeforePunct]
  | c :: rest, hch => by
    have ih := rmWsBeforePunct_chains (List.Chain'.tail hch)
    by_cases hc : isWs c = true
    · cases rest with
      | nil =>
        constructor <;> simp [rmWsBeforePunct, headIs]
      | cons d t =>
        have hd : isWs d = false := by
          by_contra h
          exact (List.chain'_cons.mp hch).1 ⟨hc, by simpa using h⟩
        simp only [List.tail_cons] at ih
        rw [rmWsBeforePunct_cons_not_ws hd] at ih
        rw [rmWsBeforePunct, if_pos hc, rmWsBeforePunct_cons_not_ws hd]
        by_cases hp : isPunct d = true
        · rw [if_pos (by simp [headIs, hp])]
          exact ih
        · rw [if_neg (by simp [headIs, hp])]
          constructor
          · rw [List.chain'_cons']
            refine ⟨?_, ih.1⟩
            intro y hy
            simp at hy
            subst hy
            exact fun hand => by rw [hd] at hand; exact absurd hand.2 (by simp)
          · rw [List.chain'_cons']
            refine ⟨?_, ih.2⟩
            intro y hy
            simp at hy
            subst hy
            exact fun hand => hp hand.2
    · rw [rmWsBeforePunct_cons_not_ws (by simpa using hc)]
      constructor
      · rw [List.chain'_cons']
        exact ⟨fun y _ => fun hand => hc hand.1, ih.1⟩
      · rw [List.chain'_cons']
        exact ⟨fun y _ => fun hand => hc hand.1, ih.2⟩

theorem rmWsBeforePunct_eq_self : ∀ {l : List Char}, List.Chain' nwsR l →
    List.Chain' nwpR l → rmWsBeforePunct l = l
  | [], _, _ => rfl
  | c :: rest, hs, hp => by
    have hrest : rmWsBeforePunct rest = rest :=
      rmWsBeforePunct_eq_self (List.Chain'.tail hs) (List.Chain'.tail hp)
    by_cases hc : isWs c = true
    · cases rest with
      | nil => simp [rmWsBeforePunct, headIs]
      | cons d t =>
        have hd : isWs d = false := by
          by_contra h
          exact (List.chain'_cons.mp hs).1 ⟨hc, by simpa using h⟩
        have hpd : isPunct d = false := by
          by_contra h
          exact (List.chain'_cons.mp hp).1 ⟨hc, by simpa using h⟩
        rw [rmWsBeforePunct, if_pos hc, hrest,
          if_neg (by simp [headIs, hpd])]
    · rw [rmWsBeforePunct_cons_not_ws (by simpa using hc), hrest]

/-! ## Lemmas about `fixPunctUpper` -/

theorem fixPunctUpper_head? : ∀ l : List Char,
    (fixPunctUpper l).head? = l.head?
  | [] => rfl
  | c :: rest => by
    rw [fixPunctUpper]
    by_cases hp : isPunct c = true
    · rw [if_pos hp]
      by_cases hh : headIs Char.isUpper ((fixPunctUpper rest).dropWhile isWs) = true
      · rw [if_pos hh]
        rfl
      · rw [if_neg hh]
        rfl
    · rw [if_neg hp]
      rfl

theorem fixPunctUpper_cons_not_punct {c : Char} {rest : List Char}
    (hc : isPunct c = false) :
    fixPunctUpper (c :: rest) = c :: fixPunctUpper rest := by
  rw [fixPunctUpper, if_neg (by simp [hc])]

theorem mem_fixPunctUpper {x : Char} : ∀ {l : List Char},
    x ∈ fixPunctUpper l → x ∈ l ∨ x = ' '
  | [], h => by simp [fixPunctUpper] at h
  | c :: rest, h => by
    have tailCase : x ∈ fixPunctUpper rest → x ∈ c :: rest ∨ x = ' ' := by
      intro h'
      rcases mem_fixPunctUpper h' with h'' | h''
      · exact Or.inl (List.mem_cons_of_mem c h'')
      · exact Or.inr h''
    rw [fixPunctUpper] at h
    by_cases hp : isPunct c = true
    · rw [if_pos hp] at h
      by_cases hh : headIs Char.isUpper ((fixPunctUpper rest).dropWhile isWs) = true
      · rw [if_pos hh] at h
        rcases List.mem_cons.mp h with h' | h'
        · exact Or.inl (h' ▸ List.mem_cons_self c rest)
        rcases List.mem_cons.mp h' with h'' | h''
        · exact Or.inr h''
        · have : x ∈ fixPunctUpper rest :=
            List.Sublist.mem h'' ((List.dropWhile_suffix isWs).sublist)
          exact tailCase this
      · rw [if_neg hh] at h
        rcases List.mem_cons.mp h with h' | h'
        · exact Or.inl (h' ▸ List.mem_cons_self c rest)
        · exact tailCase h'
    · rw [if_neg hp] at h
      rcases List.mem_cons.mp h with h' | h'
      · exact Or.inl (h' ▸ List.mem_cons_self c rest)
      · exact tailCase h'

theorem ws_not_upper {c : Char} (h : isWs c = true) : c.isUpper = false := by
  by_contra hu
  have := upper_not_ws (by simpa using hu)
  rw [h] at this
  exact absurd this (by simp)

theorem punct_not_upper {c : Char} (h : isPunct c = true) : c.isUpper = false := by
  by_contra hu
  have := upper_not_punct (by simpa using hu)
  rw [h] at this
  exact absurd this (by simp)

theorem fixPunctUpper_chains : ∀ {l : List Char}, wsSingle l →
    List.Chain' nwsR l → List.Chain' nwpR l →
    List.Chain' nwsR (fixPunctUpper l) ∧ List.Chain' nwpR (fixPunctUpper l) ∧
      List.Chain' npuR (fixPunctUpper l)
  | [], _, _, _ => by refine ⟨?_, ?_, ?_⟩ <;> simp [fixPunctUpper]
  | c :: rest, hws, hs, hp => by
    have ih := fixPunctUpper_chains
      (fun x hx => hws x (List.mem_cons_of_mem c hx))
      (List.Chain'.tail hs) (List.Chain'.tail hp)
    have hlinks : ∀ y ∈ (fixPunctUpper rest).head?, nwsR c y ∧ nwpR c y := by
      intro y hy
      rw [fixPunctUpper_head? rest] at hy
      exact ⟨(List.chain'_cons'.mp hs).1 y hy, (List.chain'_cons'.mp hp).1 y hy⟩
    by_cases hc : isPunct c = true
    · by_cases hh : headIs Char.isUpper ((fixPunctUpper rest).dropWhile isWs) = true
      · rw [fixPunctUpper, if_pos (by simp [hc]), if_pos hh]
        obtain ⟨u, tl, hutl, hu⟩ := headIs_true_head? hh
        rw [hutl]
        have hdws : List.Chain' nwsR (u :: tl) ∧ List.Chain' nwpR (u :: tl) ∧
            List.Chain' npuR (u :: tl) := by
          rw [← hutl]
          exact ⟨List.Chain'.suffix ih.1 (List.dropWhile_suffix isWs),
            List.Chain'.suffix ih.2.1 (List.dropWhile_suffix isWs),
            List.Chain'.suffix ih.2.2 (List.dropWhile_suffix isWs)⟩
        have hcw : isWs c = false := punct_not_ws hc
        refine ⟨?_, ?_, ?_⟩
        · rw [List.chain'_cons', List.chain'_cons']
          refine ⟨fun y hy => ?_, fun y hy => ?_, hdws.1⟩
          · exact fun hand => by rw [hcw] at hand; exact absurd hand.1 (by simp)
          · simp at hy
            subst hy
            exact fun hand => by
              rw [upper_not_ws hu] at hand
              exact absurd hand.2 (by simp)
        · rw [List.chain'_cons', List.chain'_cons']
          refine ⟨fun y hy => ?_, fun y hy => ?_, hdws.2.1⟩
          · exact fun hand => by rw [hcw] at hand; exact absurd hand.1 (by simp)
          · simp at hy
            subst hy
            exact fun hand => by
              rw [upper_not_punct hu] at hand
              exact absurd hand.2 (by simp)
        · rw [List.chain'_cons', List.chain'_cons']
          refine ⟨fun y hy => ?_, fun y hy => ?_, hdws.2.2⟩
          · simp at hy
            subst hy
            exact fun hand => absurd hand.2 (by decide)
          · exact fun hand => absurd hand.1 (by decide)
      · rw [fixPunctUpper, if_pos (by simp [hc]), if_neg hh]
        have hcw : isWs c = false := punct_not_ws hc
        refine ⟨?_, ?_, ?_⟩
        · rw [List.chain'_cons']
          refine ⟨fun y hy => ?_, ih.1⟩
          exact fun hand => by rw [hcw] at hand; exact absurd hand.1 (by simp)
        · rw [List.chain'_cons']
          refine ⟨fun y hy => ?_, ih.2.1⟩
          exact fun hand => by rw [hcw] at hand; exact absurd hand.1 (by simp)
        · rw [List.chain'_cons']
          refine ⟨fun y hy => ?_, ih.2.2⟩
          intro hand
          have hyu := hand.2
          rw [fixPunctUpper_head? rest] at hy
          by_cases hyw : isWs y = true
          · rw [ws_not_upper hyw] at hyu
            exact absurd hyu (by simp)
          · cases rest with
            | nil => simp at hy
            | cons d t =>
              simp at hy
              subst hy
              have h0 := fixPunctUpper_head? (d :: t)
              cases hfx : fixPunctUpper (d :: t) with
              | nil => rw [hfx] at h0; simp at h0
              | cons a b =>
                rw [hfx] at h0
                simp at h0
                apply hh
                rw [hfx, List.dropWhile_cons,
                  if_neg (by rw [h0]; simpa using hyw)]
                simp only [headIs]
                rw [h0]
                exact hyu
    · rw [fixPunctUpper_cons_not_punct (by simpa using hc)]
      refine ⟨?_, ?_, ?_⟩
      · rw [List.chain'_cons']
        exact ⟨fun y hy => (hlinks y hy).1, ih.1⟩
      · rw [List.chain'_cons']
        exact ⟨fun y hy => (hlinks y hy).2, ih.2.1⟩
      · rw [List.chain'_cons']
        refine ⟨fun y _ => ?_, ih.2.2⟩
        exact fun hand => hc hand.1

theorem fixPunctUpper_eq_self : ∀ {l : List Char}, wsSingle l →
    List.Chain' nwsR l → List.Chain' npuR l → fixPunctUpper l = l
  | [], _, _, _ => rfl
  | c :: rest, hws, hs, hp => by
    have hrest : fixPunctUpper rest = rest :=
      fixPunctUpper_eq_self (fun x hx => hws x (List.mem_cons_of_mem c hx))
        (List.Chain'.tail hs) (List.Chain'.tail hp)
    by_cases hc : isPunct c = true
    · rw [fixPunctUpper, if_pos (by simp [hc]), hrest]
      cases rest with
      | nil => simp [headIs]
      | cons d t =>
        by_cases hdw : isWs d = true
        · have hdsp : d = ' ' := hws d (by simp) hdw
          cases t with
          | nil =>
            have hdrop : List.dropWhile isWs [d] = [] := by
              rw [List.dropWhile_cons, if_pos (by simp [hdw])]
              rfl
            rw [hdrop, if_neg (by simp [headIs])]
          | cons e t2 =>
            have hde : isWs e = false := by
              by_contra h
              exact (List.chain'_cons.mp (List.Chain'.tail hs)).1
                ⟨hdw, by simpa using h⟩
            have hdrop : List.dropWhile isWs (d :: e :: t2) = e :: t2 := by
              rw [List.dropWhile_cons, if_pos (by simp [hdw]),
                List.dropWhile_cons, if_neg (by simp [hde])]
            rw [hdrop]
            by_cases hue : e.isUpper = true
            · rw [if_pos (by simp [headIs, hue]), hdsp]
            · rw [if_neg (by simp [headIs, hue])]
        · have hdrop : List.dropWhile isWs (d :: t) = d :: t := by
            rw [List.dropWhile_cons, if_neg (by simpa using hdw)]
          have hdu : d.isUpper = false := by
            by_contra h
            exact (List.chain'_cons.mp hp).1 ⟨hc, by simpa using h⟩
          rw [hdrop, if_neg (by simp [headIs, hdu])]
    · rw [fixPunctUpper_cons_not_punct (by simpa using hc), hrest]

/-! ## Normal forms of `clean_text` outputs and the idempotence analysis -/


theorem cleanChars_normal {l : List Char}
    (h : ∀ c ∈ l, isAllowed c = true) : NormalChars (cleanChars l) := by
  have hws1 : wsSingle (collapseWs l) := collapseWs_wsSingle l
  have hch1 : List.Chain' nwsR (collapseWs l) := collapseWs_chain l
  have hal1 : ∀ c ∈ collapseWs l, isAllowed c = true := by
    intro c hc
    rcases mem_collapseWs hc with h' | h'
    · exact h c h'
    · rw [h']; decide
  have h2 := rmWsBeforePunct_chains hch1
  have hws2 : wsSingle (rmWsBeforePunct (collapseWs l)) :=
    fun c hc hw => hws1 c (mem_rmWsBeforePunct hc) hw
  have hal2 : ∀ c ∈ rmWsBeforePunct (collapseWs l), isAllowed c = true :=
    fun c hc => hal1 c (mem_rmWsBeforePunct hc)
  have h3 := fixPunctUpper_chains hws2 h2.1 h2.2
  have hws3 : wsSingle (fixPunctUpper (rmWsBeforePunct (collapseWs l))) := by
    intro c hc hw
    rcases mem_fixPunctUpper hc with h' | h'
    · exact hws2 c h' hw
    · exact h'
  have hal3 : ∀ c ∈ fixPunctUpper (rmWsBeforePunct (collapseWs l)),
      isAllowed c = true := by
    intro c hc
    rcases mem_fixPunctUpper hc with h' | h'
    · exact hal2 c h'
    · rw [h']; decide
  have hfil : List.filter isAllowed
      (fixPunctUpper (rmWsBeforePunct (collapseWs l))) =
      fixPunctUpper (rmWsBeforePunct (collapseWs l)) :=
    List.filter_eq_self.mpr hal3
  unfold cleanChars
  rw [hfil]
  exact ⟨fun c hc hw => hws3 c (mem_trimWs hc) hw,
    chainInfix h3.1 (trimWs_isInf _),
    chainInfix h3.2.1 (trimWs_isInf _),
    chainInfix h3.2.2 (trimWs_isInf _),
    headOk_trimWs _, lastOk_trimWs _,
    fun c hc => hal3 c (mem_trimWs hc)⟩

theorem cleanChars_eq_self {l : List Char} (h : NormalChars l) :
    cleanChars l = l := by
  obtain ⟨hws, h1, h2, h3, hh, hl, hal⟩ := h
  unfold cleanChars
  rw [collapseWs_eq_self hws h1, rmWsBeforePunct_eq_self h1 h2,
    fixPunctUpper_eq_self hws h1 h3, List.filter_eq_self.mpr hal,
    trimWs_eq_self hh hl]

/-! ## Lemmas about `sjoin` and the audio chunker -/

theorem sjoin_append_singleton : ∀ (l : List String), l ≠ [] → ∀ s : String,
    sjoin (l ++ [s]) = sjoin l ++ " " ++ s
  | [], h, _ => absurd rfl h
  | [a], _, s => rfl
  | a :: b :: t, _, s => by
    have ih := sjoin_append_singleton (b :: t) (by simp) s
    show sjoin (a :: b :: (t ++ [s])) = sjoin (a :: b :: t) ++ " " ++ s
    rw [sjoin, sjoin]
    have ih' : sjoin (b :: (t ++ [s])) = sjoin (b :: t) ++ " " ++ s := by
      rw [← List.cons_append]
      exact ih
    rw [ih', ← String.append_assoc, ← String.append_assoc]

theorem sjoin_data_ne_nil : ∀ {l : List String}, (∀ s ∈ l, s.data ≠ []) →
    l ≠ [] → (sjoin l).data ≠ []
  | [], _, h => absurd rfl h
  | [a], hg, _ => hg a (by simp)
  | a :: b :: t, hg, _ => by
    rw [sjoin, String.data_append, String.data_append, List.append_assoc]
    intro hnil
    exact hg a (by simp) (List.append_eq_nil.mp hnil).1

theorem sjoin_edges : ∀ {l : List String},
    (∀ s ∈ l, s.data ≠ [] ∧ headOk s.data ∧ lastOk s.data) →
    headOk (sjoin l).data ∧ lastOk (sjoin l).data
  | [], _ => by
    constructor <;> · intro c hc; simp [sjoin] at hc
  | [a], hg => ⟨(hg a (by simp)).2.1, (hg a (by simp)).2.2⟩
  | a :: b :: t, hg => by
    have ih : headOk (sjoin (b :: t)).data ∧ lastOk (sjoin (b :: t)).data :=
      sjoin_edges (fun s hs => hg s (List.mem_cons_of_mem a hs))
    have hane : a.data ≠ [] := (hg a (by simp)).1
    have hbne : (sjoin (b :: t)).data ≠ [] :=
      sjoin_data_ne_nil (fun s hs => (hg s (List.mem_cons_of_mem a hs)).1)
        (by simp)
    rw [sjoin]
    constructor
    · intro c hc
      have hd : ((a ++ " " ++ sjoin (b :: t)).data).head? = a.data.head? := by
        rw [String.data_append, String.data_append, List.append_assoc,
          List.head?_append]
        cases ha : a.data with
        | nil => exact absurd ha hane
        | cons x xs => rfl
      rw [hd] at hc
      exact (hg a (by simp)).2.1 c hc
    · intro c hc
      have hd : ((a ++ " " ++ sjoin (b :: t)).data).getLast? =
          (sjoin (b :: t)).data.getLast? := by
        rw [String.data_append]
        exact List.getLast?_append_of_ne_nil _ hbne
      rw [hd] at hc
      exact ih.2 c hc

theorem goodSent_sjoin {l : List String} (hg : ∀ s ∈ l, GoodSent s)
    (hne : l ≠ []) : GoodSent (sjoin l) := by
  have hg' : ∀ s ∈ l, s.data ≠ [] ∧ headOk s.data ∧ lastOk s.data :=
    fun s hs => (goodSent_iff s).mp (hg s hs)
  rcases sjoin_edges hg' with ⟨h1, h2⟩
  exact (goodSent_iff (sjoin l)).mpr
    ⟨sjoin_data_ne_nil (fun s hs => (hg' s hs).1) hne, h1, h2⟩

theorem sjoin_ne_empty {l : List String} (hg : ∀ s ∈ l, GoodSent s)
    (hne : l ≠ []) : sjoin l ≠ "" :=
  (goodSent_sjoin hg hne).1

theorem chunkGroups_flatten : ∀ (ss cur : List String) (m : Nat),
    (chunkGroups ss cur m).flatten = cur ++ ss
  | [], cur, m => by
    by_cases h : cur = []
    · subst h
      simp [chunkGroups]
    · rw [chunkGroups, if_pos h]
      simp
  | s :: rest, cur, m => by
    rw [chunkGroups]
    by_cases h : m < (sjoin cur ++ s).length ∧ cur ≠ []
    · rw [if_pos h]
      rw [List.flatten_cons, chunkGroups_flatten rest [s] m]
      rfl
    · rw [if_neg h, chunkGroups_flatten rest (cur ++ [s]) m]
      simp

theorem chunkGroups_ne_nil : ∀ (ss cur : List String) (m : Nat),
    ∀ g ∈ chunkGroups ss cur m, g ≠ []
  | [], cur, m, g, hg => by
    by_cases h : cur = []
    · subst h
      simp [chunkGroups] at hg
    · rw [chunkGroups, if_pos h] at hg
      simp at hg
      exact hg ▸ h
  | s :: rest, cur, m, g, hg => by
    rw [chunkGroups] at hg
    by_cases h : m < (sjoin cur ++ s).length ∧ cur ≠ []
    · rw [if_pos h] at hg
      rcases List.mem_cons.mp hg with h' | h'
      · exact h' ▸ h.2
      · exact chunkGroups_ne_nil rest [s] m g h'
    · rw [if_neg h] at hg
      exact chunkGroups_ne_nil rest (cur ++ [s]) m g hg

theorem chunkLoop_eq_groups : ∀ (ss cur : List String) (m : Nat),
    (∀ s ∈ ss, GoodSent s) → (∀ s ∈ cur, GoodSent s) →
    chunkLoop ss (sjoin cur) m = (chunkGroups ss cur m).map sjoin
  | [], cur, m, _, hcur => by
    by_cases h : cur = []
    · subst h
      rw [chunkLoop, chunkGroups]
      simp [pyStrip, sjoin, trimWs]
    · have hgood : GoodSent (sjoin cur) := goodSent_sjoin hcur h
      rw [chunkLoop, chunkGroups, if_pos h, if_pos (by rw [hgood.2]; exact hgood.1)]
      rw [hgood.2]
      rfl
  | s :: rest, cur, m, hss, hcur => by
    have hs : GoodSent s := hss s (by simp)
    have hrest : ∀ x ∈ rest, GoodSent x := fun x hx => hss x (by simp [hx])
    rw [chunkLoop, chunkGroups]
    by_cases h : m < (sjoin cur ++ s).length ∧ cur ≠ []
    · have hne : sjoin cur ≠ "" := sjoin_ne_empty hcur h.2
      rw [if_pos ⟨h.1, hne⟩, if_pos h]
      have hgood : GoodSent (sjoin cur) := goodSent_sjoin hcur h.2
      rw [hgood.2, List.map_cons]
      have ih := chunkLoop_eq_groups rest [s] m hrest
        (by intro x hx; simp at hx; exact hx ▸ hs)
      exact congrArg (sjoin cur :: ·) ih
    · by_cases hc : cur = []
      · subst hc
        rw [if_neg (by simp [sjoin]), if_neg h]
        have ih := chunkLoop_eq_groups rest [s] m hrest
          (by intro x hx; simp at hx; exact hx ▸ hs)
        simpa [sjoin] using ih
      · have hne : sjoin cur ≠ "" := sjoin_ne_empty hcur hc
        have hlen : ¬ m < (sjoin cur ++ s).length := by
          intro h1
          exact h ⟨h1, hc⟩
        rw [if_neg (by intro h1; exact hlen h1.1), if_neg h]
        have ih := chunkLoop_eq_groups rest (cur ++ [s]) m hrest
          (by
            intro x hx
            rcases List.mem_append.mp hx with h' | h'
            · exact hcur x h'
            · simp at h'
              exact h' ▸ hs)
        rw [if_pos hne, ← sjoin_append_singleton cur hc s]
        exact ih

theorem mem_length_le_sjoin : ∀ {l : List String} {t : String}, t ∈ l →
    t.length ≤ (sjoin l).length
  | [], t, h => by simp at h
  | [a], t, h => by
    simp at h
    exact h ▸ Nat.le_refl _
  | a :: b :: r, t, h => by
    rw [sjoin, String.length_append, String.length_append]
    rcases List.mem_cons.mp h with h' | h'
    · subst h'
      omega
    · have := mem_length_le_sjoin h'
      omega

theorem chunkGroups_budget : ∀ (ss cur : List String) (m : Nat),
    (2 ≤ cur.length → (sjoin cur).length ≤ m + 1) →
    ∀ g ∈ chunkGroups ss cur m, 2 ≤ g.length → (sjoin g).length ≤ m + 1
  | [], cur, m, hinv, g, hg => by
    by_cases h : cur = []
    · subst h
      simp [chunkGroups] at hg
    · rw [chunkGroups, if_pos h] at hg
      simp at hg
      exact hg ▸ hinv
  | s :: rest, cur, m, hinv, g, hg => by
    rw [chunkGroups] at hg
    by_cases h : m < (sjoin cur ++ s).length ∧ cur ≠ []
    · rw [if_pos h] at hg
      rcases List.mem_cons.mp hg with h' | h'
      · exact h' ▸ hinv
      · exact chunkGroups_budget rest [s] m (by intro h2; simp at h2) g h'
    · rw [if_neg h] at hg
      refine chunkGroups_budget rest (cur ++ [s]) m ?_ g hg
      intro h2
      by_cases hc : cur = []
      · subst hc
        simp at h2
      · have hlen : (sjoin cur ++ s).length ≤ m := by
          by_contra h1
          exact h ⟨by omega, hc⟩
        rw [sjoin_append_singleton cur hc s, String.length_append,
          String.length_append]
        rw [String.length_append] at hlen
        have : (" " : String).length = 1 := rfl
        omega

theorem chunkGroups_alone : ∀ (ss cur : List String) (m : Nat),
    (∀ t ∈ cur, m < t.length → cur = [t]) →
    ∀ g ∈ chunkGroups ss cur m, ∀ t ∈ g, m < t.length → g = [t]
  | [], cur, m, hinv, g, hg => by
    by_cases h : cur = []
    · subst h
      simp [chunkGroups] at hg
    · rw [chunkGroups, if_pos h] at hg
      simp at hg
      exact hg ▸ hinv
  | s :: rest, cur, m, hinv, g, hg => by
    rw [chunkGroups] at hg
    by_cases h : m < (sjoin cur ++ s).length ∧ cur ≠ []
    · rw [if_pos h] at hg
      rcases List.mem_cons.mp hg with h' | h'
      · exact h' ▸ hinv
      · refine chunkGroups_alone rest [s] m ?_ g h'
        intro t ht _
        simp at ht
        rw [ht]
    · rw [if_neg h] at hg
      refine chunkGroups_alone rest (cur ++ [s]) m ?_ g hg
      intro t ht hlong
      by_cases hc : cur = []
      · subst hc
        simp at ht
        rw [ht]
        rfl
      · exfalso
        have hlen : (sjoin cur ++ s).length ≤ m := by
          by_contra h1
          exact h ⟨by omega, hc⟩
        rw [String.length_append] at hlen
        rcases List.mem_append.mp ht with h' | h'
        · have := mem_length_le_sjoin h'
          omega
        · simp at h'
          subst h'
          omega

/-! ## Lemmas about the story paginator -/

theorem pageLoop_eq_groups : ∀ (ss cur : List String) (len : Nat),
    pageLoop ss cur len = (pageGroups ss cur len).map sjoin
  | [], cur, len => by
    by_cases h : cur = []
    · subst h
      simp [pageLoop, pageGroups]
    · rw [pageLoop, pageGroups, if_pos h, if_pos h]
      rfl
  | s :: rest, cur, len => by
    rw [pageLoop, pageGroups]
    by_cases h : shouldNewPage (cur ++ [s]).length (len + s.length) s = true
    · rw [if_pos h, if_pos h, List.map_cons,
        pageLoop_eq_groups rest [] 0]
    · rw [if_neg h, if_neg h, pageLoop_eq_groups rest (cur ++ [s]) (len + s.length)]

theorem pageGroups_flatten : ∀ (ss cur : List String) (len : Nat),
    (pageGroups ss cur len).flatten = cur ++ ss
  | [], cur, len => by
    by_cases h : cur = []
    · subst h
      simp [pageGroups]
    · rw [pageGroups, if_pos h]
      simp
  | s :: rest, cur, len => by
    rw [pageGroups]
    by_cases h : shouldNewPage (cur ++ [s]).length (len + s.length) s = true
    · rw [if_pos h, List.flatten_cons, pageGroups_flatten rest [] 0]
      simp
    · rw [if_neg h, pageGroups_flatten rest (cur ++ [s]) (len + s.length)]
      simp

theorem pageGroups_ne_nil : ∀ (ss cur : List String) (len : Nat),
    ∀ g ∈ pageGroups ss cur len, g ≠ []
  | [], cur, len, g, hg => by
    by_cases h : cur = []
    · subst h
      simp [pageGroups] at hg
    · rw [pageGroups, if_pos h] at hg
      simp at hg
      exact hg ▸ h
  | s :: rest, cur, len, g, hg => by
    rw [pageGroups] at hg
    by_cases h : shouldNewPage (cur ++ [s]).length (len + s.length) s = true
    · rw [if_pos h] at hg
      rcases List.mem_cons.mp hg with h' | h'
      · rw [h']
        simp
      · exact pageGroups_ne_nil rest [] 0 g h'
    · rw [if_neg h] at hg
      exact pageGroups_ne_nil rest (cur ++ [s]) (len + s.length) g hg

theorem shouldNewPage_false_lt {n len : Nat} {s : String}
    (h : shouldNewPage n len s = false) : n < 4 := by
  by_contra h4
  rw [shouldNewPage, if_pos (by omega)] at h
  exact absurd h (by simp)

theorem pageGroups_size : ∀ (ss cur : List String) (len : Nat),
    cur.length ≤ 3 → ∀ g ∈ pageGroups ss cur len,
      1 ≤ g.length ∧ g.length ≤ 4
  | [], cur, len, hcur, g, hg => by
    by_cases h : cur = []
    · subst h
      simp [pageGroups] at hg
    · rw [pageGroups, if_pos h] at hg
      simp at hg
      subst hg
      constructor
      · cases hgc : g.length with
        | zero => exact absurd (List.length_eq_zero.mp hgc) h
        | succ n => omega
      · omega
  | s :: rest, cur, len, hcur, g, hg => by
    rw [pageGroups] at hg
    by_cases h : shouldNewPage (cur ++ [s]).length (len + s.length) s = true
    · rw [if_pos h] at hg
      rcases List.mem_cons.mp hg with h' | h'
      · subst h'
        rw [List.length_append]
        simp
        omega
      · exact pageGroups_size rest [] 0 (by simp) g h'
    · rw [if_neg h] at hg
      have hlt : (cur ++ [s]).length < 4 :=
        shouldNewPage_false_lt (by simpa using h)
      exact pageGroups_size rest (cur ++ [s]) (len + s.length)
        (by omega) g hg

theorem sumLen_append_singleton (g : List String) (s : String) :
    sumLen (g ++ [s]) = sumLen g + s.length := by
  unfold sumLen
  rw [List.map_append, List.sum_append]
  rfl

theorem pageGroups_closed : ∀ (ss cur : List String) (len : Nat),
    len = sumLen cur → ∀ i, i + 1 < (pageGroups ss cur len).length →
      closedGroup ((pageGroups ss cur len).getD i [])
  | [], cur, len, _, i, hi => by
    by_cases h : cur = []
    · subst h
      simp [pageGroups] at hi
    · rw [pageGroups, if_pos h] at hi
      simp at hi
  | s :: rest, cur, len, hlen, i, hi => by
    rw [pageGroups] at hi ⊢
    by_cases h : shouldNewPage (cur ++ [s]).length (len + s.length) s = true
    · rw [if_pos h] at hi ⊢
      cases i with
      | zero =>
        rw [List.getD_cons_zero]
        unfold closedGroup
        rw [List.getLastD_concat, sumLen_append_singleton, ← hlen]
        exact h
      | succ j =>
        rw [List.getD_cons_succ]
        refine pageGroups_closed rest [] 0 rfl j ?_
        rw [List.length_cons] at hi
        omega
    · rw [if_neg h] at hi ⊢
      exact pageGroups_closed rest (cur ++ [s]) (len + s.length)
        (by rw [hlen, sumLen_append_singleton]) i hi

/-! ## The closing decision as a prioritized disjunction -/

theorem hasSubstr_iff : ∀ (w l : List Char), hasSubstr w l = true ↔ w <:+: l
  | w, [] => by
    rw [hasSubstr]
    constructor
    · intro h
      rw [List.isEmpty_iff.mp h]
    · intro h
      rw [List.infix_nil.mp h]
      rfl
  | w, c :: rest => by
    rw [hasSubstr, Bool.or_eq_true, List.isPrefixOf_iff_prefix,
      hasSubstr_iff w rest, List.infix_cons_iff]

theorem shouldNewPage_iff (n len : Nat) (s : String) :
    shouldNewPage n len s = true ↔
      (4 ≤ n ∨ (300 < len ∧ 2 ≤ n) ∨
        (3 ≤ n ∧ 200 < len ∧ ∃ w ∈ markers, w.data <:+: (pyLower s).data)) := by
  unfold shouldNewPage
  by_cases h4 : 4 ≤ n
  · rw [if_pos h4]
    simp [h4]
  · rw [if_neg h4]
    by_cases h3 : 300 < len ∧ 2 ≤ n
    · rw [if_pos h3]
      simp [h3]
    · rw [if_neg h3]
      by_cases h2 : 3 ≤ n ∧ 200 < len
      · rw [if_pos h2]
        rw [List.any_eq_true]
        constructor
        · rintro ⟨w, hw, hsub⟩
          exact Or.inr (Or.inr ⟨h2.1, h2.2, w, hw, (hasSubstr_iff _ _).mp hsub⟩)
        · rintro (h' | h' | ⟨_, _, w, hw, hsub⟩)
          · omega
          · exact absurd h' h3
          · exact ⟨w, hw, (hasSubstr_iff _ _).mpr hsub⟩
      · rw [if_neg h2]
        constructor
        · intro h'
          exact absurd h' (by simp)
        · rintro (h' | h' | ⟨ha, hb, _⟩)
          · omega
          · exact absurd h' h3
          · exact absurd ⟨ha, hb⟩ h2

/-! ## Lemmas about the fixed-width fallback slicing -/

theorem sliceChunks_flatten : ∀ (l : List Char) (k : Nat),
    (sliceChunks l (k + 1)).flatten = l
  | [], _ => by simp [sliceChunks]
  | c :: rest, k => by
    rw [sliceChunks, List.flatten_cons,
      sliceChunks_flatten (List.drop (k + 1) (c :: rest)) k]
    exact List.take_append_drop (k + 1) (c :: rest)
termination_by l _ => l.length
decreasing_by simp [List.length_drop]; omega

theorem sliceChunks_mem_size : ∀ (l : List Char) (k : Nat),
    ∀ c ∈ sliceChunks l (k + 1), c.length ≤ k + 1 ∧ c ≠ []
  | [], k, c, hc => by simp [sliceChunks] at hc
  | x :: rest, k, c, hc => by
    rw [sliceChunks] at hc
    rcases List.mem_cons.mp hc with h' | h'
    · subst h'
      constructor
      · rw [List.length_take]
        omega
      · rw [List.take_succ_cons]
        simp
    · exact sliceChunks_mem_size (List.drop (k + 1) (x :: rest)) k c h'
termination_by l _ => l.length
decreasing_by simp [List.length_drop]; omega

theorem sliceChunks_getD : ∀ (l : List Char) (k i : Nat),
    i + 1 < (sliceChunks l (k + 1)).length →
    ((sliceChunks l (k + 1)).getD i []).length = k + 1
  | [], k, i, hi => by simp [sliceChunks] at hi
  | x :: rest, k, i, hi => by
    rw [sliceChunks] at hi ⊢
    cases i with
    | zero =>
      rw [List.getD_cons_zero]
      rw [List.length_cons] at hi
      have hd : sliceChunks (List.drop (k + 1) (x :: rest)) (k + 1) ≠ [] := by
        intro h0
        rw [h0] at hi
        simp at hi
      have hdrop : List.drop (k + 1) (x :: rest) ≠ [] := by
        intro h0
        rw [h0] at hd
        exact hd (by rw [sliceChunks])
      have hlen : k + 1 < (x :: rest).length := by
        by_contra hle
        exact hdrop (List.drop_eq_nil_of_le (by omega))
      rw [List.length_take]
      omega
    | succ j =>
      rw [List.getD_cons_succ]
      refine sliceChunks_getD (List.drop (k + 1) (x :: rest)) k j ?_
      rw [List.length_cons] at hi
      omega
termination_by l _ _ => l.length
decreasing_by simp [List.length_drop]; omega

/-! ## The claims -/

/-- C1 (counterexample): the budget invariant as stated is false.  With
`max_chunk_size = 7` and the two sentences `"Ab."` and `"Abc."` (each within
the budget, so the single-sentence-overflow exception does not apply), the
closing check `len(current_chunk + sentence) > max_chunk_size` does not count
the joining space, so the two sentences are packed into the single chunk
`"Ab. Abc."` of length 8 > 7. -/
theorem claim_C1_counterexample :
    segment_text_for_audio (fun _ => ["Ab.", "Abc."]) "Ab. Abc." 7 =
      ["Ab. Abc."] ∧
    7 < ("Ab. Abc." : String).length ∧
    chunkGroups ["Ab.", "Abc."] [] 7 = [["Ab.", "Abc."]] ∧
    ("Ab." : String).length ≤ 7 ∧ ("Abc." : String).length ≤ 7 := by
  refine ⟨by decide, by decide, by decide, by decide, by decide⟩

/-- C1 (amended): for tokenizer outputs satisfying the §4.2 contract, every
chunk is the space-join of its sentence group, and every chunk built from at
least two sentences has length at most `max_chunk_size + 1` (one more than
the stated budget, because the closing check omits the joining space);
a single-sentence chunk may have any length (the overflow case). -/
theorem claim_C1_budget (tok : String → List String) (text : String)
    (m : Nat) (hgood : ∀ s ∈ tok text, GoodSent s) :
    segment_text_for_audio tok text m =
      (chunkGroups (tok text) [] m).map sjoin ∧
    ∀ g ∈ chunkGroups (tok text) [] m, 2 ≤ g.length →
      (sjoin g).length ≤ m + 1 := by
  constructor
  · exact chunkLoop_eq_groups (tok text) [] m hgood (by intro s hs; simp at hs)
  · exact chunkGroups_budget (tok text) [] m (by intro h2; simp at h2)

/-- C2: coverage and non-splitting.  For the audio chunker (under the §4.2
tokenizer contract) and the story paginator, the output is exactly the list
of space-joins of a partition of the sentence list into consecutive
non-empty groups: concatenating the groups reproduces every sentence exactly
once, in order, and no sentence is split across two chunks or two pages. -/
theorem claim_C2_coverage :
    (∀ (tok : String → List String) (text : String) (m : Nat),
      (∀ s ∈ tok text, GoodSent s) →
      segment_text_for_audio tok text m =
        (chunkGroups (tok text) [] m).map sjoin ∧
      (chunkGroups (tok text) [] m).flatten = tok text ∧
      ∀ g ∈ chunkGroups (tok text) [] m, g ≠ []) ∧
    (∀ (tok : String → List String) (text : String) (k : Nat),
      split_story_into_pages tok text k =
        (pageGroups (storySentences tok text) [] 0).map sjoin ∧
      (pageGroups (storySentences tok text) [] 0).flatten =
        storySentences tok text ∧
      ∀ g ∈ pageGroups (storySentences tok text) [] 0, g ≠ []) := by
  constructor
  · intro tok text m hgood
    refine ⟨chunkLoop_eq_groups (tok text) [] m hgood
      (by intro s hs; simp at hs), ?_, chunkGroups_ne_nil (tok text) [] m⟩
    rw [chunkGroups_flatten]
    rfl
  · intro tok text k
    refine ⟨pageLoop_eq_groups (storySentences tok text) [] 0, ?_,
      pageGroups_ne_nil (storySentences tok text) [] 0⟩
    rw [pageGroups_flatten]
    rfl

/-- C3: after each sentence is appended, the paginator closes the page
exactly when the prioritized conditions of the spec hold — (1) the page has
reached 4 sentences, else (2) cumulative length exceeds 300 with at least 2
sentences, else (3) at least 3 sentences, cumulative length exceeds 200, and
the just-appended sentence's lowercased text contains a discourse marker as a
substring; otherwise accumulation continues, and any sentences remaining
after the loop are emitted as a final page. -/
theorem claim_C3_closing_policy :
    (∀ (n len : Nat) (s : String), shouldNewPage n len s = true ↔
      (4 ≤ n ∨ (300 < len ∧ 2 ≤ n) ∨
        (3 ≤ n ∧ 200 < len ∧ ∃ w ∈ markers, w.data <:+: (pyLower s).data))) ∧
    (∀ (s : String) (rest cur : List String) (len : Nat),
      pageLoop (s :: rest) cur len =
        if shouldNewPage (cur.length + 1) (len + s.length) s = true then
          sjoin (cur ++ [s]) :: pageLoop rest [] 0
        else pageLoop rest (cur ++ [s]) (len + s.length)) ∧
    (∀ (cur : List String) (len : Nat), cur ≠ [] →
      pageLoop [] cur len = [sjoin cur]) ∧
    (∀ len : Nat, pageLoop [] [] len = []) := by
  refine ⟨shouldNewPage_iff, ?_, ?_, ?_⟩
  · intro s rest cur len
    have hlen : (cur ++ [s]).length = cur.length + 1 := by simp
    rw [pageLoop, hlen]
  · intro cur len h
    rw [pageLoop, if_pos h]
  · intro len
    rw [pageLoop, if_neg (by simp)]

/-- C5: the output of `split_story_into_pages` does not depend on the
`sentences_per_page` hint; the closing policy hardcodes the 4/300/200
thresholds.  (The parameter is accepted but never read.) -/
theorem claim_C5_hint_ignored (tok : String → List String) (text : String)
    (h1 h2 : Nat) :
    split_story_into_pages tok text h1 = split_story_into_pages tok text h2 :=
  rfl

/-- C4 (counterexample): normalization is not idempotent.  On `"a *."` the
character filter removes `'*'` only after the punctuation-spacing repairs
have run, leaving the space-before-period pattern `"a ."`; a second pass then
deletes that space, so `clean_text (clean_text "a *.") ≠ clean_text "a *."`. -/
theorem claim_C4_counterexample :
    clean_text "a *." = "a ." ∧ clean_text "a ." = "a." ∧
    clean_text (clean_text "a *.") ≠ clean_text "a *." := by
  refine ⟨by decide, by decide, by decide⟩

/-- C4 (amended): normalization is idempotent on every input in which no
character is removed by the filtering step, i.e. every character is a word
character, whitespace, or one of the allowed punctuation characters.  (The
counterexample shows idempotence fails exactly when the filter deletes a
character between the spacing-repair passes and the second application.) -/
theorem claim_C4_idempotent_on_allowed (s : String)
    (h : ∀ c ∈ s.data, isAllowed c = true) :
    clean_text (clean_text s) = clean_text s := by
  show String.mk (cleanChars (cleanChars s.data)) = String.mk (cleanChars s.data)
  exact congrArg String.mk (cleanChars_eq_self (cleanChars_normal h))

/-- C6: every story page holds between 1 and 4 sentences inclusive, and every
page except possibly the final one satisfies the closing condition that
normally triggers a close (count/length/discourse-marker); only the final
page may fall short of every closing threshold. -/
theorem claim_C6_page_size (tok : String → List String) (text : String)
    (k : Nat) :
    split_story_into_pages tok text k =
      (pageGroups (storySentences tok text) [] 0).map sjoin ∧
    (∀ g ∈ pageGroups (storySentences tok text) [] 0,
      1 ≤ g.length ∧ g.length ≤ 4) ∧
    (∀ i, i + 1 < (pageGroups (storySentences tok text) [] 0).length →
      closedGroup ((pageGroups (storySentences tok text) [] 0).getD i [])) := by
  refine ⟨pageLoop_eq_groups (storySentences tok text) [] 0, ?_, ?_⟩
  · exact pageGroups_size (storySentences tok text) [] 0 (by simp)
  · exact pageGroups_closed (storySentences tok text) [] 0 rfl

/-- C7: a sentence longer than `max_chunk_size` is emitted alone as its own
chunk: it appears in the output (overflowing the budget is accepted, not an
error), and any sentence group containing it is exactly the singleton group
of that sentence. -/
theorem claim_C7_long_sentence_alone (tok : String → List String)
    (text : String) (m : Nat) (s : String) (hm : 1 ≤ m)
    (hgood : ∀ x ∈ tok text, GoodSent x) (hs : s ∈ tok text)
    (hlong : m < s.length) :
    s ∈ segment_text_for_audio tok text m ∧
    ∀ g ∈ chunkGroups (tok text) [] m, s ∈ g → g = [s] := by
  have halone : ∀ g ∈ chunkGroups (tok text) [] m, ∀ t ∈ g,
      m < t.length → g = [t] :=
    chunkGroups_alone (tok text) [] m (by intro t ht; simp at ht)
  constructor
  · have hflat : (chunkGroups (tok text) [] m).flatten = tok text := by
      rw [chunkGroups_flatten]
      rfl
    have hsmem : s ∈ (chunkGroups (tok text) [] m).flatten := by
      rw [hflat]
      exact hs
    obtain ⟨g, hg, hsg⟩ := List.mem_flatten.mp hsmem
    have hgs : g = [s] := halone g hg s hsg hlong
    have hcorr := chunkLoop_eq_groups (tok text) [] m hgood
      (by intro x hx; simp at hx)
    show s ∈ chunkLoop (tok text) (sjoin []) m
    rw [hcorr]
    refine List.mem_map.mpr ⟨g, hg, ?_⟩
    rw [hgs]
    rfl
  · exact fun g hg hsg => halone g hg s hsg hlong

/-- C8: when sentence splitting raises (modelled by a `none` segmentation
result), `split_text_into_chunks` does not propagate the error but returns
the fixed-width slices of the raw text: consecutive windows of exactly
`chunk_size` characters (the last possibly shorter, none empty), whose
concatenation is the raw text. -/
theorem claim_C8_fallback (text : String) (k : Nat) (hk : 1 ≤ k) :
    split_text_into_chunks none text k =
      (sliceChunks text.data k).map String.mk ∧
    (sliceChunks text.data k).flatten = text.data ∧
    (∀ c ∈ sliceChunks text.data k, c.length ≤ k ∧ c ≠ []) ∧
    (∀ i, i + 1 < (sliceChunks text.data k).length →
      ((sliceChunks text.data k).getD i []).length = k) := by
  obtain ⟨j, rfl⟩ : ∃ j, k = j + 1 := by
    cases k with
    | zero => omega
    | succ j => exact ⟨j, rfl⟩
  exact ⟨rfl, sliceChunks_flatten text.data j,
    sliceChunks_mem_size text.data j, sliceChunks_getD text.data j⟩

/-- C9: empty input is not an error anywhere in the core: normalizing the
empty string gives the empty string, and both segmenters produce an empty
sequence (given that the tokenizer maps the empty string to no sentences,
part of its §4.2 contract). -/
theorem claim_C9_empty_input :
    clean_text "" = "" ∧
    (∀ (tok : String → List String) (m : Nat), tok "" = [] →
      segment_text_for_audio tok "" m = []) ∧
    (∀ (tok : String → List String) (k : Nat), tok "" = [] →
      split_story_into_pages tok "" k = []) := by
  refine ⟨by decide, ?_, ?_⟩
  · intro tok m h
    unfold segment_text_for_audio
    rw [h, chunkLoop, if_neg (by decide)]
  · intro tok k h
    unfold split_story_into_pages storySentences
    rw [show clean_text "" = "" from by decide, h]
    rw [show (([] : List String).map pyStrip).filter (fun s => s ≠ "") = []
      from rfl]
    rw [pageLoop, if_neg (by simp)]

/-- C10 (implicit): under the §4.2 tokenizer contract, every chunk emitted by
`segment_text_for_audio` is non-empty and carries no leading or trailing
whitespace (`pyStrip c = c`). -/
theorem claim_C10_chunks_trimmed (tok : String → List String) (text : String)
    (m : Nat) (hgood : ∀ s ∈ tok text, GoodSent s) :
    ∀ c ∈ segment_text_for_audio tok text m, c ≠ "" ∧ pyStrip c = c := by
  intro c hc
  have hcorr := chunkLoop_eq_groups (tok text) [] m hgood
    (by intro x hx; simp at hx)
  rw [show segment_text_for_audio tok text m =
    chunkLoop (tok text) (sjoin []) m from rfl, hcorr] at hc
  obtain ⟨g, hg, hgc⟩ := List.mem_map.mp hc
  have hne : g ≠ [] := chunkGroups_ne_nil (tok text) [] m g hg
  have hflat : (chunkGroups (tok text) [] m).flatten = tok text := by
    rw [chunkGroups_flatten]
    rfl
  have hmem : ∀ x ∈ g, GoodSent x := by
    intro x hx
    exact hgood x (by rw [← hflat]; exact List.mem_flatten.mpr ⟨g, hg, hx⟩)
  have := goodSent_sjoin hmem hne
  rw [← hgc]
  exact this

/-! ## Witnesses -/

/-- Witness for C1 at a concrete tokenizer output: both sentences fit one
chunk and the multi-sentence bound `m + 1` holds. -/
theorem claim_C1_witness :
    segment_text_for_audio (fun _ => ["Hi.", "Yo."]) "Hi. Yo." 30 =
      (chunkGroups ["Hi.", "Yo."] [] 30).map sjoin ∧
    (sjoin ["Hi.", "Yo."]).length ≤ 31 :=
  ⟨(claim_C1_budget (fun _ => ["Hi.", "Yo."]) "Hi. Yo." 30 (by decide)).1,
   (claim_C1_budget (fun _ => ["Hi.", "Yo."]) "Hi. Yo." 30 (by decide)).2
     ["Hi.", "Yo."] (by decide) (by decide)⟩

/-- Witness for C2 at concrete inputs for both the chunker and paginator. -/
theorem claim_C2_witness :
    segment_text_for_audio (fun _ => ["Hi.", "Yo."]) "x" 30 =
      (chunkGroups ["Hi.", "Yo."] [] 30).map sjoin ∧
    (chunkGroups ["Hi.", "Yo."] [] 30).flatten = ["Hi.", "Yo."] ∧
    split_story_into_pages (fun _ => ["A.", "B."]) "x" 3 =
      (pageGroups (storySentences (fun _ => ["A.", "B."]) "x") [] 0).map sjoin :=
  ⟨(claim_C2_coverage.1 (fun _ => ["Hi.", "Yo."]) "x" 30 (by decide)).1,
   (claim_C2_coverage.1 (fun _ => ["Hi.", "Yo."]) "x" 30 (by decide)).2.1,
   (claim_C2_coverage.2 (fun _ => ["A.", "B."]) "x" 3).1⟩

/-- Witness for C3's final-page clause at a concrete non-empty accumulator. -/
theorem claim_C3_witness : pageLoop [] ["A."] 0 = [sjoin ["A."]] :=
  claim_C3_closing_policy.2.2.1 ["A."] 0 (by decide)

/-- Witness for C4 at a concrete all-allowed input. -/
theorem claim_C4_witness :
    clean_text (clean_text "Hi. There") = clean_text "Hi. There" :=
  claim_C4_idempotent_on_allowed "Hi. There" (by decide)

/-- Witness for C6 at a five-sentence story: the first page closes at four
sentences (so it satisfies the closing condition) and the trailing sentence
forms the final page. -/
theorem claim_C6_witness :
    split_story_into_pages (fun _ => ["A.", "B.", "C.", "D.", "E."]) "x" 3 =
      (pageGroups
        (storySentences (fun _ => ["A.", "B.", "C.", "D.", "E."]) "x")
        [] 0).map sjoin ∧
    (1 ≤ (["A.", "B.", "C.", "D."] : List String).length ∧
      (["A.", "B.", "C.", "D."] : List String).length ≤ 4) ∧
    closedGroup ((pageGroups
      (storySentences (fun _ => ["A.", "B.", "C.", "D.", "E."]) "x")
      [] 0).getD 0 []) :=
  ⟨(claim_C6_page_size (fun _ => ["A.", "B.", "C.", "D.", "E."]) "x" 3).1,
   (claim_C6_page_size (fun _ => ["A.", "B.", "C.", "D.", "E."]) "x" 3).2.1
     ["A.", "B.", "C.", "D."] (by decide),
   (claim_C6_page_size (fun _ => ["A.", "B.", "C.", "D.", "E."]) "x" 3).2.2
     0 (by decide)⟩

/-- Witness for C7: a 9-character sentence with budget 5 is emitted alone. -/
theorem claim_C7_witness :
    "Aaaaaaaa." ∈ segment_text_for_audio
      (fun _ => ["Aaaaaaaa.", "B."]) "x" 5 ∧
    (["Aaaaaaaa."] : List String) = ["Aaaaaaaa."] :=
  ⟨(claim_C7_long_sentence_alone (fun _ => ["Aaaaaaaa.", "B."]) "x" 5
      "Aaaaaaaa." (by decide) (by decide) (by decide) (by decide)).1,
   (claim_C7_long_sentence_alone (fun _ => ["Aaaaaaaa.", "B."]) "x" 5
      "Aaaaaaaa." (by decide) (by decide) (by decide) (by decide)).2
     ["Aaaaaaaa."] (by decide) (by decide)⟩

/-- Witness for C8 at `"abcde"` with window 2. -/
theorem claim_C8_witness :
    split_text_into_chunks none "abcde" 2 =
      (sliceChunks ("abcde" : String).data 2).map String.mk ∧
    (sliceChunks ("abcde" : String).data 2).flatten =
      ("abcde" : String).data :=
  ⟨(claim_C8_fallback "abcde" 2 (by decide)).1,
   (claim_C8_fallback "abcde" 2 (by decide)).2.1⟩

/-- Witness for C9 with a tokenizer that maps the empty string to no
sentences. -/
theorem claim_C9_witness :
    segment_text_for_audio (fun _ => []) "" 500 = [] ∧
    split_story_into_pages (fun _ => []) "" 3 = [] :=
  ⟨claim_C9_empty_input.2.1 (fun _ => []) 500 rfl,
   claim_C9_empty_input.2.2 (fun _ => []) 3 rfl⟩

/-- Witness for C10 at the concrete chunk produced from two sentences. -/
theorem claim_C10_witness :
    ("Hi. Yo." : String) ≠ "" ∧ pyStrip "Hi. Yo." = "Hi. Yo." :=
  claim_C10_chunks_trimmed (fun _ => ["Hi.", "Yo."]) "x" 30 (by decide)
    "Hi. Yo." (by decide)
